import Mathlib

/-!
Verification model of the chained hash-set family
(sequential, coarse-grained, refinable variants).

The definitions below are shallow embeddings of the C++ sources:
`src/hash_set_sequential.h`, `src/hash_set_coarse_grained.h`,
`src/hash_set_refinable.h` and `src/util.h`.  Machine `size_t`
arithmetic is modelled by `Nat`; the only decrement (`set_size_--` in
`Remove`) happens on a path where the removed element is in a bucket,
so the counter is positive and no wrap-around can occur.
-/

set_option maxHeartbeats 1000000

/-- State of the sequential hash set: `table_` (a vector of buckets)
and `set_size_` (the element counter `n`). -/
structure HashSetSequential (α : Type) where
  table : List (List α)
  set_size : Nat
deriving DecidableEq

namespace HashSetSequential

variable {α : Type} [DecidableEq α]

/-- The constructor `HashSetSequential(capacity)`: `capacity` empty buckets,
size counter `0`.  The source asserts `capacity > 0`. -/
def init (α : Type) (capacity : Nat) : HashSetSequential α :=
  ⟨List.replicate capacity [], 0⟩

/-- Bucket index of an element: `hasher_(elem) % B` where `B` is the
current table length. -/
def bucketIdx (hasher : α → Nat) (B : Nat) (e : α) : Nat := hasher e % B

/-- `Bucket_`: the bucket associated with the element,
`table_[hasher_(elem) % table_.size()]`. -/
def Bucket_ (hasher : α → Nat) (s : HashSetSequential α) (e : α) : List α :=
  s.table.getD (bucketIdx hasher s.table.length e) []

/-- `Policy_`: `set_size_ / table_.size() > 4` (integer division on `size_t`). -/
def Policy_ (s : HashSetSequential α) : Bool :=
  decide (4 < s.set_size / s.table.length)

/-- One step of the rehash loop body: push `e` onto bucket
`hasher_(e) % B` of the new table. -/
def placeElem (hasher : α → Nat) (B : Nat) (t : List (List α)) (e : α) :
    List (List α) :=
  t.set (bucketIdx hasher B e) (t.getD (bucketIdx hasher B e) [] ++ [e])

/-- The rehash loop of `Resize_`: starting from `B` empty buckets, place
each element (in table iteration order) into its new bucket. -/
def rehash (hasher : α → Nat) (B : Nat) (elems : List α) : List (List α) :=
  elems.foldl (placeElem hasher B) (List.replicate B [])

/-- `Resize_`: allocate a table of twice as many buckets, move every
element of the old table into it, replace the table.  `set_size_` is
not touched. -/
def Resize_ (hasher : α → Nat) (s : HashSetSequential α) : HashSetSequential α :=
  ⟨rehash hasher (s.table.length * 2) s.table.flatten, s.set_size⟩

/-- The state after the insertion part of `Add` (steps 4 of the source):
the element appended to its bucket, `set_size_` incremented. -/
def addInsert (hasher : α → Nat) (s : HashSetSequential α) (e : α) :
    HashSetSequential α :=
  ⟨s.table.set (bucketIdx hasher s.table.length e) (Bucket_ hasher s e ++ [e]),
   s.set_size + 1⟩

/-- `Add`: duplicate scan of the target bucket; on a duplicate return
`false`; otherwise append, increment `set_size_`, and resize if the
policy fires.  Returns the C++ return value paired with the state. -/
def Add (hasher : α → Nat) (s : HashSetSequential α) (e : α) :
    Bool × HashSetSequential α :=
  if e ∈ Bucket_ hasher s e then (false, s)
  else if (addInsert hasher s e).Policy_ then
    (true, (addInsert hasher s e).Resize_ hasher)
  else (true, addInsert hasher s e)

/-- `Remove`: find the first match in the target bucket; if absent
return `false`; otherwise erase it and decrement `set_size_`. -/
def Remove (hasher : α → Nat) (s : HashSetSequential α) (e : α) :
    Bool × HashSetSequential α :=
  if e ∈ Bucket_ hasher s e then
    (true,
     ⟨s.table.set (bucketIdx hasher s.table.length e)
        ((Bucket_ hasher s e).erase e),
      s.set_size - 1⟩)
  else (false, s)

/-- `Contains`: scan the target bucket; no field of the object is
written, so the state component is returned unchanged. -/
def Contains (hasher : α → Nat) (s : HashSetSequential α) (e : α) :
    Bool × HashSetSequential α :=
  (decide (e ∈ Bucket_ hasher s e), s)

/-- `Size`: return `set_size_`; the state is untouched (`const` method). -/
def Size (s : HashSetSequential α) : Nat × HashSetSequential α :=
  (s.set_size, s)

/-- States reachable from a freshly constructed set (positive capacity)
by `Add` and `Remove` calls (`Contains` and `Size` do not write). -/
inductive Reachable (hasher : α → Nat) : HashSetSequential α → Prop
  | init (c : Nat) (hc : 0 < c) : Reachable hasher (init α c)
  | add (s : HashSetSequential α) (e : α) :
      Reachable hasher s → Reachable hasher (Add hasher s e).2
  | remove (s : HashSetSequential α) (e : α) :
      Reachable hasher s → Reachable hasher (Remove hasher s e).2

/-- Driver that applies `Add` for each element of a list in order,
keeping only the final state. -/
def addAll (hasher : α → Nat) (s : HashSetSequential α) (es : List α) :
    HashSetSequential α :=
  es.foldl (fun t e => (Add hasher t e).2) s

end HashSetSequential

namespace HashSetCoarseGrained

variable {α : Type} [DecidableEq α]

open HashSetSequential in
/-- Coarse-grained `Resize_`: snapshot `old_capacity = table_size_`,
take the lock, and abort if the table size has meanwhile changed;
otherwise rehash into a table of `old_capacity * 2` buckets.
Modelled as a function of the snapshot and the state found once the
lock is held. -/
def Resize_ (hasher : α → Nat) (old_capacity : Nat)
    (s : HashSetSequential α) : HashSetSequential α :=
  if old_capacity ≠ s.table.length then s
  else ⟨rehash hasher (old_capacity * 2) s.table.flatten, s.set_size⟩

open HashSetSequential in
/-- Coarse-grained `Add` in its single-threaded projection: the locked
section is the sequential insert; then, outside the lock, the policy
is checked and `Resize_` is called with the current table size as its
snapshot. -/
def Add (hasher : α → Nat) (s : HashSetSequential α) (e : α) :
    Bool × HashSetSequential α :=
  if e ∈ Bucket_ hasher s e then (false, s)
  else if (addInsert hasher s e).Policy_ then
    (true,
     Resize_ hasher (addInsert hasher s e).table.length (addInsert hasher s e))
  else (true, addInsert hasher s e)

end HashSetCoarseGrained

namespace HashSetSequential

variable {α : Type}

lemma flatten_set_ms (t : List (List α)) (i : Nat) (hi : i < t.length)
    (v : List α) :
    ((t.set i v).flatten : Multiset α) + (t.getD i [] : Multiset α)
      = (t.flatten : Multiset α) + (v : Multiset α) := by
  induction t generalizing i with
  | nil => simp at hi
  | cons a ts ih =>
    cases i with
    | zero =>
      simp only [List.set_cons_zero, List.flatten_cons, List.getD_cons_zero,
        ← Multiset.coe_add]
      abel
    | succ i =>
      have hi' : i < ts.length := by simpa using hi
      simp only [List.set_cons_succ, List.flatten_cons, List.getD_cons_succ,
        ← Multiset.coe_add]
      rw [add_assoc, ih i hi', ← add_assoc]

lemma placeElem_length (hasher : α → Nat) (B : Nat) (t : List (List α))
    (e : α) : (placeElem hasher B t e).length = t.length := by
  simp [placeElem]

lemma foldl_place_length (hasher : α → Nat) (B : Nat) (es : List α)
    (t : List (List α)) :
    (es.foldl (placeElem hasher B) t).length = t.length := by
  induction es generalizing t with
  | nil => rfl
  | cons e es ih => simp [List.foldl_cons, ih, placeElem_length]

lemma rehash_length (hasher : α → Nat) (B : Nat) (es : List α) :
    (rehash hasher B es).length = B := by
  simp [rehash, foldl_place_length]

lemma placeElem_flatten_ms (hasher : α → Nat) (B : Nat) (t : List (List α))
    (e : α) (ht : bucketIdx hasher B e < t.length) :
    ((placeElem hasher B t e).flatten : Multiset α)
      = (t.flatten : Multiset α) + {e} := by
  have h := flatten_set_ms t (bucketIdx hasher B e) ht
    (t.getD (bucketIdx hasher B e) [] ++ [e])
  rw [← Multiset.coe_add] at h
  have h2 : ((placeElem hasher B t e).flatten : Multiset α)
        + (t.getD (bucketIdx hasher B e) [] : Multiset α)
      = ((t.flatten : Multiset α) + {e})
        + (t.getD (bucketIdx hasher B e) [] : Multiset α) := by
    simp only [placeElem]
    rw [h, ← Multiset.coe_singleton]
    abel
  exact add_right_cancel h2

lemma foldl_place_flatten_ms (hasher : α → Nat) (B : Nat) (hB : 0 < B)
    (es : List α) (t : List (List α)) (ht : t.length = B) :
    ((es.foldl (placeElem hasher B) t).flatten : Multiset α)
      = (t.flatten : Multiset α) + (es : Multiset α) := by
  induction es generalizing t with
  | nil => simp
  | cons e es ih =>
    have hidx : bucketIdx hasher B e < t.length := by
      rw [ht]; exact Nat.mod_lt _ hB
    rw [List.foldl_cons, ih (placeElem hasher B t e)
        (by rw [placeElem_length, ht]),
      placeElem_flatten_ms hasher B t e hidx, ← Multiset.cons_coe,
      add_assoc, Multiset.singleton_add]

lemma rehash_flatten_ms (hasher : α → Nat) (B : Nat) (hB : 0 < B)
    (es : List α) :
    ((rehash hasher B es).flatten : Multiset α) = (es : Multiset α) := by
  rw [rehash, foldl_place_flatten_ms hasher B hB es _ (by simp)]
  simp

lemma rehash_flatten_length (hasher : α → Nat) (B : Nat) (hB : 0 < B)
    (es : List α) : (rehash hasher B es).flatten.length = es.length := by
  have h := congrArg Multiset.card (rehash_flatten_ms hasher B hB es)
  simpa using h

lemma getD_set_self (t : List (List α)) (j : Nat) (hj : j < t.length)
    (v : List α) : (t.set j v).getD j [] = v := by
  rw [List.getD_eq_getElem?_getD, List.getElem?_set_eq_of_lt v hj]
  rfl

lemma getD_set_ne (t : List (List α)) (i j : Nat) (v : List α)
    (hne : j ≠ i) : (t.set j v).getD i [] = t.getD i [] := by
  rw [List.getD_eq_getElem?_getD, List.getElem?_set_ne hne,
    List.getD_eq_getElem?_getD]

lemma foldl_place_getD (hasher : α → Nat) (B : Nat) (es : List α)
    (t : List (List α)) (ht : t.length = B) (i : Nat) (hi : i < B) :
    (es.foldl (placeElem hasher B) t).getD i []
      = t.getD i [] ++ es.filter (fun x => bucketIdx hasher B x == i) := by
  induction es generalizing t with
  | nil => simp
  | cons e es ih =>
    rw [List.foldl_cons,
      ih (placeElem hasher B t e) (by rw [placeElem_length, ht]),
      List.filter_cons]
    by_cases hbe : bucketIdx hasher B e = i
    · have hset : (placeElem hasher B t e).getD i [] = t.getD i [] ++ [e] := by
        rw [placeElem, hbe]
        exact getD_set_self t i (ht ▸ hi) _
      rw [hset]
      simp [hbe]
    · have hset : (placeElem hasher B t e).getD i [] = t.getD i [] := by
        rw [placeElem]
        exact getD_set_ne t i (bucketIdx hasher B e) _ hbe
      rw [hset]
      simp [hbe]

lemma rehash_getD (hasher : α → Nat) (B : Nat) (es : List α) (i : Nat)
    (hi : i < B) :
    (rehash hasher B es).getD i []
      = es.filter (fun x => bucketIdx hasher B x == i) := by
  rw [rehash, foldl_place_getD hasher B es _ (by simp) i hi]
  have h0 : (List.replicate B ([] : List α)).getD i [] = [] := by
    rw [List.getD_eq_getElem _ _ (by simpa using hi)]
    simp
  rw [h0, List.nil_append]

/-- Structural invariant of the table: positive bucket count, every
element sits in the bucket selected by its hash, buckets are
duplicate-free, and the size counter equals the number of stored
elements. -/
structure InvT (hasher : α → Nat) (s : HashSetSequential α) : Prop where
  pos : 0 < s.table.length
  placed : ∀ i, i < s.table.length → ∀ e ∈ s.table.getD i [],
      bucketIdx hasher s.table.length e = i
  nodup : ∀ i, i < s.table.length → (s.table.getD i []).Nodup
  size_eq : s.set_size = s.table.flatten.length

/-- Full invariant: the structural invariant plus the load bound
maintained by the resize policy. -/
def Inv (hasher : α → Nat) (s : HashSetSequential α) : Prop :=
  InvT hasher s ∧ s.set_size < 5 * s.table.length

lemma InvT.flatten_nodup {hasher : α → Nat} {s : HashSetSequential α}
    (h : InvT hasher s) : s.table.flatten.Nodup := by
  rw [List.nodup_flatten]
  constructor
  · intro l hl
    obtain ⟨j, hj, rfl⟩ := List.mem_iff_getElem.mp hl
    have hnd := h.nodup j hj
    rwa [List.getD_eq_getElem _ _ hj] at hnd
  · rw [List.pairwise_iff_getElem]
    intro i j hi hj hij
    intro e hei hej
    have h1 := h.placed i hi e (by rwa [List.getD_eq_getElem _ _ hi])
    have h2 := h.placed j hj e (by rwa [List.getD_eq_getElem _ _ hj])
    omega

lemma mem_Bucket_iff_mem_flatten (hasher : α → Nat) (s : HashSetSequential α)
    (hs : InvT hasher s) (e : α) :
    e ∈ Bucket_ hasher s e ↔ e ∈ s.table.flatten := by
  constructor
  · intro he
    rw [List.mem_flatten]
    refine ⟨s.table.getD (bucketIdx hasher s.table.length e) [], ?_, he⟩
    have hidx : bucketIdx hasher s.table.length e < s.table.length :=
      Nat.mod_lt _ hs.pos
    rw [List.getD_eq_getElem _ _ hidx]
    exact List.getElem_mem _
  · intro he
    rw [List.mem_flatten] at he
    obtain ⟨b, hb, heb⟩ := he
    obtain ⟨j, hj, rfl⟩ := List.mem_iff_getElem.mp hb
    have hpl := hs.placed j hj e (by rwa [List.getD_eq_getElem _ _ hj])
    rw [Bucket_, hpl, List.getD_eq_getElem _ _ hj]
    exact heb

lemma getD_replicate_nil (c i : Nat) :
    (List.replicate c ([] : List α)).getD i [] = [] := by
  rcases Nat.lt_or_ge i c with hic | hic
  · rw [List.getD_eq_getElem _ _ (by simpa using hic)]
    simp
  · rw [List.getD_eq_default _ _ (by simpa using hic)]

lemma Resize_table_length (hasher : α → Nat) (s : HashSetSequential α) :
    (Resize_ hasher s).table.length = s.table.length * 2 :=
  rehash_length hasher _ _

lemma Resize_set_size (hasher : α → Nat) (s : HashSetSequential α) :
    (Resize_ hasher s).set_size = s.set_size := rfl

lemma Resize_flatten_ms (hasher : α → Nat) (s : HashSetSequential α)
    (hpos : 0 < s.table.length) :
    ((Resize_ hasher s).table.flatten : Multiset α)
      = (s.table.flatten : Multiset α) :=
  rehash_flatten_ms hasher _ (by omega) _

lemma Resize_invT (hasher : α → Nat) (s : HashSetSequential α)
    (hs : InvT hasher s) : InvT hasher (Resize_ hasher s) := by
  have hB : 0 < s.table.length * 2 := by have := hs.pos; omega
  have hlen := Resize_table_length hasher s
  refine ⟨?_, ?_, ?_, ?_⟩
  · omega
  · intro i hi x hx
    rw [hlen] at hi
    rw [show (Resize_ hasher s).table
          = rehash hasher (s.table.length * 2) s.table.flatten from rfl,
      rehash_getD hasher _ _ i hi] at hx
    have := (List.mem_filter.mp hx).2
    rw [hlen]
    simpa using this
  · intro i hi
    rw [hlen] at hi
    rw [show (Resize_ hasher s).table
          = rehash hasher (s.table.length * 2) s.table.flatten from rfl,
      rehash_getD hasher _ _ i hi]
    exact hs.flatten_nodup.filter _
  · rw [Resize_set_size, hs.size_eq,
      show (Resize_ hasher s).table
        = rehash hasher (s.table.length * 2) s.table.flatten from rfl,
      rehash_flatten_length hasher _ hB]

lemma addInsert_table_eq (hasher : α → Nat) (s : HashSetSequential α)
    (e : α) :
    (addInsert hasher s e).table = placeElem hasher s.table.length s.table e :=
  rfl

lemma addInsert_table_length (hasher : α → Nat) (s : HashSetSequential α)
    (e : α) : (addInsert hasher s e).table.length = s.table.length := by
  rw [addInsert_table_eq, placeElem_length]

lemma addInsert_set_size (hasher : α → Nat) (s : HashSetSequential α)
    (e : α) : (addInsert hasher s e).set_size = s.set_size + 1 := rfl

lemma addInsert_flatten_ms (hasher : α → Nat) (s : HashSetSequential α)
    (e : α) (hpos : 0 < s.table.length) :
    ((addInsert hasher s e).table.flatten : Multiset α)
      = (s.table.flatten : Multiset α) + {e} := by
  rw [addInsert_table_eq]
  exact placeElem_flatten_ms hasher _ s.table e (Nat.mod_lt _ hpos)

lemma addInsert_invT (hasher : α → Nat) (s : HashSetSequential α) (e : α)
    (hs : InvT hasher s) (he : e ∉ Bucket_ hasher s e) :
    InvT hasher (addInsert hasher s e) := by
  have hidx : bucketIdx hasher s.table.length e < s.table.length :=
    Nat.mod_lt _ hs.pos
  have hlen := addInsert_table_length hasher s e
  refine ⟨?_, ?_, ?_, ?_⟩
  · omega
  · intro i hi x hx
    rw [hlen] at hi
    rw [addInsert_table_eq, placeElem] at hx
    rw [hlen]
    by_cases hieq : i = bucketIdx hasher s.table.length e
    · subst hieq
      rw [getD_set_self s.table _ hidx] at hx
      rcases List.mem_append.mp hx with hx1 | hx2
      · exact hs.placed _ hidx x hx1
      · rw [List.mem_singleton.mp hx2]
    · rw [getD_set_ne s.table i _ _ (fun h => hieq h.symm)] at hx
      exact hs.placed i hi x hx
  · intro i hi
    rw [hlen] at hi
    rw [addInsert_table_eq, placeElem]
    by_cases hieq : i = bucketIdx hasher s.table.length e
    · subst hieq
      rw [getD_set_self s.table _ hidx]
      have hnd := hs.nodup _ hidx
      simp only [List.nodup_append, List.nodup_cons, List.nodup_nil]
      exact ⟨hnd, by simp, by simpa [List.disjoint_singleton, Bucket_] using he⟩
    · rw [getD_set_ne s.table i _ _ (fun h => hieq h.symm)]
      exact hs.nodup i hi
  · have hcard := congrArg Multiset.card (addInsert_flatten_ms hasher s e hs.pos)
    simp only [Multiset.card_add, Multiset.coe_card, Multiset.card_singleton]
      at hcard
    rw [addInsert_set_size, hcard, hs.size_eq]

lemma Add_inv [DecidableEq α] (hasher : α → Nat) (s : HashSetSequential α)
    (e : α) (hs : Inv hasher s) : Inv hasher (Add hasher s e).2 := by
  by_cases he : e ∈ Bucket_ hasher s e
  · simpa [Add, he] using hs
  · have h1 := addInsert_invT hasher s e hs.1 he
    by_cases hp : (addInsert hasher s e).Policy_ = true
    · simp only [Add, if_neg he, if_pos hp]
      refine ⟨Resize_invT _ _ h1, ?_⟩
      rw [Resize_set_size, Resize_table_length, addInsert_table_length,
        addInsert_set_size]
      have hload := hs.2
      have hpos := hs.1.pos
      omega
    · simp only [Add, if_neg he, if_neg hp]
      refine ⟨h1, ?_⟩
      rw [addInsert_table_length, addInsert_set_size]
      have hpos := hs.1.pos
      have hpol : ¬ 4 < (s.set_size + 1) / s.table.length := by
        have heq : (addInsert hasher s e).Policy_
            = decide (4 < (s.set_size + 1) / s.table.length) := by
          rw [Policy_, addInsert_set_size, addInsert_table_length]
        intro hc
        exact hp (by rw [heq]; simpa using hc)
      have h5 : ¬ 5 * s.table.length ≤ s.set_size + 1 := by
        intro hle
        refine hpol ?_
        have h6 : 5 ≤ (s.set_size + 1) / s.table.length :=
          (Nat.le_div_iff_mul_le hpos).mpr (by omega)
        omega
      omega

lemma Remove_inv [DecidableEq α] (hasher : α → Nat) (s : HashSetSequential α)
    (e : α) (hs : Inv hasher s) : Inv hasher (Remove hasher s e).2 := by
  by_cases he : e ∈ Bucket_ hasher s e
  · simp only [Remove, if_pos he]
    have hidx : bucketIdx hasher s.table.length e < s.table.length :=
      Nat.mod_lt _ hs.1.pos
    have hms := flatten_set_ms s.table (bucketIdx hasher s.table.length e)
      hidx ((Bucket_ hasher s e).erase e)
    have hcard := congrArg Multiset.card hms
    simp only [Multiset.card_add, Multiset.coe_card] at hcard
    have hblen : ((Bucket_ hasher s e).erase e).length
        = (Bucket_ hasher s e).length - 1 := List.length_erase_of_mem he
    have hbpos : 0 < (Bucket_ hasher s e).length := List.length_pos.mpr
      (List.ne_nil_of_mem he)
    have hlen : (s.table.set (bucketIdx hasher s.table.length e)
        ((Bucket_ hasher s e).erase e)).length = s.table.length := by
      simp
    refine ⟨⟨?_, ?_, ?_, ?_⟩, ?_⟩
    · rw [hlen]; exact hs.1.pos
    · intro i hi x hx
      rw [hlen] at hi ⊢
      by_cases hieq : i = bucketIdx hasher s.table.length e
      · subst hieq
        rw [getD_set_self s.table _ hidx] at hx
        exact hs.1.placed _ hidx x (List.mem_of_mem_erase hx)
      · rw [getD_set_ne s.table i _ _ (fun h => hieq h.symm)] at hx
        exact hs.1.placed i hi x hx
    · intro i hi
      rw [hlen] at hi
      by_cases hieq : i = bucketIdx hasher s.table.length e
      · subst hieq
        rw [getD_set_self s.table _ hidx]
        exact (hs.1.nodup _ hidx).erase e
      · rw [getD_set_ne s.table i _ _ (fun h => hieq h.symm)]
        exact hs.1.nodup i hi
    · have hsz := hs.1.size_eq
      have hb : Bucket_ hasher s e
          = s.table.getD (bucketIdx hasher s.table.length e) [] := rfl
      rw [← hb] at hcard
      show s.set_size - 1 = (s.table.set (bucketIdx hasher s.table.length e)
        ((Bucket_ hasher s e).erase e)).flatten.length
      omega
    · have hload := hs.2
      show s.set_size - 1 < 5 * (s.table.set
        (bucketIdx hasher s.table.length e)
        ((Bucket_ hasher s e).erase e)).length
      rw [hlen]
      omega
  · simpa [Remove, he] using hs

lemma Reachable.inv [DecidableEq α] {hasher : α → Nat}
    {s : HashSetSequential α} (h : Reachable hasher s) : Inv hasher s := by
  induction h with
  | init c hc =>
    refine ⟨⟨?_, ?_, ?_, ?_⟩, ?_⟩
    · show 0 < (List.replicate c ([] : List α)).length
      simpa using hc
    · intro i hi x hx
      rw [show (HashSetSequential.init α c).table
          = List.replicate c [] from rfl, getD_replicate_nil] at hx
      simp at hx
    · intro i hi
      rw [show (HashSetSequential.init α c).table
          = List.replicate c [] from rfl, getD_replicate_nil]
      exact List.nodup_nil
    · show 0 = (List.replicate c ([] : List α)).flatten.length
      simp
    · show 0 < 5 * (List.replicate c ([] : List α)).length
      simpa using hc
  | add s e _ ih => exact Add_inv hasher s e ih
  | remove s e _ ih => exact Remove_inv hasher s e ih

lemma Add_of_mem [DecidableEq α] (hasher : α → Nat)
    (s : HashSetSequential α) (e : α) (he : e ∈ Bucket_ hasher s e) :
    Add hasher s e = (false, s) := by
  simp [Add, he]

lemma Add_fst [DecidableEq α] (hasher : α → Nat) (s : HashSetSequential α)
    (e : α) : (Add hasher s e).1 = true ↔ e ∉ Bucket_ hasher s e := by
  by_cases he : e ∈ Bucket_ hasher s e <;>
    by_cases hp : (addInsert hasher s e).Policy_ = true <;>
    simp [Add, he, hp]

lemma Add_set_size [DecidableEq α] (hasher : α → Nat)
    (s : HashSetSequential α) (e : α) (he : e ∉ Bucket_ hasher s e) :
    (Add hasher s e).2.set_size = s.set_size + 1 := by
  by_cases hp : (addInsert hasher s e).Policy_ = true <;>
    simp [Add, he, hp, Resize_set_size, addInsert_set_size]

lemma Add_mem_flatten [DecidableEq α] (hasher : α → Nat)
    (s : HashSetSequential α) (e : α) (hs : InvT hasher s) (x : α) :
    x ∈ (Add hasher s e).2.table.flatten ↔ x ∈ s.table.flatten ∨ x = e := by
  by_cases he : e ∈ Bucket_ hasher s e
  · simp only [Add, if_pos he]
    constructor
    · exact Or.inl
    · rintro (hx | rfl)
      · exact hx
      · exact (mem_Bucket_iff_mem_flatten hasher s hs _).mp he
  · have hpos2 : 0 < (addInsert hasher s e).table.length := by
      rw [addInsert_table_length]; exact hs.pos
    have h1 : ((addInsert hasher s e).table.flatten : Multiset α)
        = (s.table.flatten : Multiset α) + {e} :=
      addInsert_flatten_ms hasher s e hs.pos
    by_cases hp : (addInsert hasher s e).Policy_ = true
    · simp only [Add, if_neg he, if_pos hp]
      rw [← Multiset.mem_coe, Resize_flatten_ms _ _ hpos2, h1]
      simp
    · simp only [Add, if_neg he, if_neg hp]
      rw [← Multiset.mem_coe, h1]
      simp

lemma Add_table_length [DecidableEq α] (hasher : α → Nat)
    (s : HashSetSequential α) (e : α) :
    (Add hasher s e).2.table.length = s.table.length ∨
      (Add hasher s e).2.table.length = s.table.length * 2 := by
  by_cases he : e ∈ Bucket_ hasher s e
  · left; simp [Add, he]
  · by_cases hp : (addInsert hasher s e).Policy_ = true
    · right
      simp [Add, he, hp, Resize_table_length, addInsert_table_length]
    · left; simp [Add, he, hp, addInsert_table_length]

lemma addAll_cons [DecidableEq α] (hasher : α → Nat)
    (s : HashSetSequential α) (e : α) (es : List α) :
    addAll hasher s (e :: es) = addAll hasher (Add hasher s e).2 es := rfl

lemma Reachable.addAll [DecidableEq α] {hasher : α → Nat}
    {s : HashSetSequential α} (hr : Reachable hasher s) (es : List α) :
    Reachable hasher (addAll hasher s es) := by
  induction es generalizing s with
  | nil => exact hr
  | cons e es ih => exact ih (hr.add s e)

lemma addAll_size [DecidableEq α] (hasher : α → Nat)
    (s : HashSetSequential α) (es : List α) (hs : Inv hasher s)
    (hnd : es.Nodup) (hfresh : ∀ x ∈ es, x ∉ s.table.flatten) :
    (addAll hasher s es).set_size = s.set_size + es.length := by
  induction es generalizing s with
  | nil => simp [addAll]
  | cons e es ih =>
    have he : e ∉ Bucket_ hasher s e := fun h =>
      hfresh e (List.mem_cons_self e es)
        ((mem_Bucket_iff_mem_flatten hasher s hs.1 e).mp h)
    have hfresh2 : ∀ x ∈ es, x ∉ (Add hasher s e).2.table.flatten := by
      intro x hx hmem
      rcases (Add_mem_flatten hasher s e hs.1 x).mp hmem with h1 | h1
      · exact hfresh x (List.mem_cons_of_mem e hx) h1
      · exact (List.nodup_cons.mp hnd).1 (h1 ▸ hx)
    rw [addAll_cons,
      ih (Add hasher s e).2 (Add_inv hasher s e hs)
        (List.nodup_cons.mp hnd).2 hfresh2,
      Add_set_size hasher s e he]
    simp [Nat.add_assoc, Nat.add_comm 1]

lemma addAll_length_pow [DecidableEq α] (hasher : α → Nat)
    (s : HashSetSequential α) (es : List α) :
    ∃ k, (addAll hasher s es).table.length = s.table.length * 2 ^ k := by
  induction es generalizing s with
  | nil => exact ⟨0, by simp [addAll]⟩
  | cons e es ih =>
    obtain ⟨k, hk⟩ := ih (Add hasher s e).2
    rw [addAll_cons]
    rcases Add_table_length hasher s e with h | h
    · exact ⟨k, by rw [hk, h]⟩
    · exact ⟨k + 1, by rw [hk, h]; ring⟩

lemma flatten_replicate_nil (c : Nat) :
    (List.replicate c ([] : List α)).flatten = [] := by
  induction c with
  | zero => rfl
  | succ c ih => simp [ih]

end HashSetSequential

/-- Claim C1: for every element `e` and every reachable state, `Add(e)`
returns `true` iff `e` was absent immediately before the call; on
`true`, `e` is present afterwards and the size counter `n` is exactly
one larger than before.  The coarse-grained variant performs the same
single-threaded state transformation. -/
theorem claim_C1_add_contract {α : Type} [DecidableEq α] (hasher : α → Nat)
    (s : HashSetSequential α) (e : α)
    (hr : HashSetSequential.Reachable hasher s) :
    ((HashSetSequential.Add hasher s e).1 = true ↔ e ∉ s.table.flatten) ∧
    ((HashSetSequential.Add hasher s e).1 = true →
      e ∈ (HashSetSequential.Add hasher s e).2.table.flatten ∧
      (HashSetSequential.Add hasher s e).2.set_size = s.set_size + 1) ∧
    HashSetCoarseGrained.Add hasher s e = HashSetSequential.Add hasher s e := by
  open HashSetSequential in
  have hinv := hr.inv
  refine ⟨?_, ?_, ?_⟩
  · rw [HashSetSequential.Add_fst]
    exact not_congr
      (HashSetSequential.mem_Bucket_iff_mem_flatten hasher s hinv.1 e)
  · intro hadd
    have he := (HashSetSequential.Add_fst hasher s e).mp hadd
    exact ⟨(HashSetSequential.Add_mem_flatten hasher s e hinv.1 e).mpr
        (Or.inr rfl),
      HashSetSequential.Add_set_size hasher s e he⟩
  · by_cases he : e ∈ HashSetSequential.Bucket_ hasher s e
    · simp [HashSetCoarseGrained.Add, HashSetSequential.Add, he]
    · by_cases hp : (HashSetSequential.addInsert hasher s e).Policy_ = true
      · simp [HashSetCoarseGrained.Add, HashSetSequential.Add, he, hp,
          HashSetCoarseGrained.Resize_, HashSetSequential.Resize_]
      · simp [HashSetCoarseGrained.Add, HashSetSequential.Add, he, hp]

/-- Witness for C1 at a concrete input: the empty one-bucket set and
element `0`. -/
theorem claim_C1_add_contract_witness :
    HashSetSequential.Reachable id (HashSetSequential.init Nat 1) ∧
    (((HashSetSequential.Add id (HashSetSequential.init Nat 1) 0).1 = true ↔
        0 ∉ (HashSetSequential.init Nat 1).table.flatten) ∧
      ((HashSetSequential.Add id (HashSetSequential.init Nat 1) 0).1 = true →
        0 ∈ (HashSetSequential.Add id
            (HashSetSequential.init Nat 1) 0).2.table.flatten ∧
        (HashSetSequential.Add id (HashSetSequential.init Nat 1) 0).2.set_size
          = (HashSetSequential.init Nat 1).set_size + 1) ∧
      HashSetCoarseGrained.Add id (HashSetSequential.init Nat 1) 0
        = HashSetSequential.Add id (HashSetSequential.init Nat 1) 0) :=
  ⟨HashSetSequential.Reachable.init 1 (by decide),
   claim_C1_add_contract id (HashSetSequential.init Nat 1) 0
     (HashSetSequential.Reachable.init 1 (by decide))⟩

/-- Claim C2: in every reachable state, every stored element lies in the
bucket selected by `hash(e) mod B` (so in exactly one bucket), no bucket
contains two equal elements, and the size counter equals the sum of the
bucket lengths. -/
theorem claim_C2_invariants {α : Type} [DecidableEq α] (hasher : α → Nat)
    (s : HashSetSequential α) (hr : HashSetSequential.Reachable hasher s) :
    (∀ i, i < s.table.length → ∀ e ∈ s.table.getD i [],
        HashSetSequential.bucketIdx hasher s.table.length e = i) ∧
    (∀ i, i < s.table.length → (s.table.getD i []).Nodup) ∧
    s.set_size = (s.table.map List.length).sum := by
  have hinv := hr.inv
  refine ⟨hinv.1.placed, hinv.1.nodup, ?_⟩
  rw [hinv.1.size_eq, List.length_flatten]

/-- Witness for C2 at the freshly constructed one-bucket set. -/
theorem claim_C2_invariants_witness :
    HashSetSequential.Reachable id (HashSetSequential.init Nat 1) ∧
    ((∀ i, i < (HashSetSequential.init Nat 1).table.length →
        ∀ e ∈ (HashSetSequential.init Nat 1).table.getD i [],
          HashSetSequential.bucketIdx id
            (HashSetSequential.init Nat 1).table.length e = i) ∧
      (∀ i, i < (HashSetSequential.init Nat 1).table.length →
        ((HashSetSequential.init Nat 1).table.getD i []).Nodup) ∧
      (HashSetSequential.init Nat 1).set_size
        = ((HashSetSequential.init Nat 1).table.map List.length).sum) :=
  ⟨HashSetSequential.Reachable.init 1 (by decide),
   claim_C2_invariants id (HashSetSequential.init Nat 1)
     (HashSetSequential.Reachable.init 1 (by decide))⟩

/-- Claim C3: `Resize_` replaces the table with one of exactly twice as
many buckets (so `B` never shrinks), the multiset of stored elements is
identical before and after, and `n` is unchanged. -/
theorem claim_C3_resize {α : Type} (hasher : α → Nat)
    (s : HashSetSequential α) (hpos : 0 < s.table.length) :
    (HashSetSequential.Resize_ hasher s).table.length = 2 * s.table.length ∧
    s.table.length ≤ (HashSetSequential.Resize_ hasher s).table.length ∧
    ((HashSetSequential.Resize_ hasher s).table.flatten : Multiset α)
      = (s.table.flatten : Multiset α) ∧
    (HashSetSequential.Resize_ hasher s).set_size = s.set_size := by
  refine ⟨?_, ?_, HashSetSequential.Resize_flatten_ms hasher s hpos, rfl⟩
  · rw [HashSetSequential.Resize_table_length]; omega
  · rw [HashSetSequential.Resize_table_length]; omega

/-- Witness for C3 at a concrete one-bucket state holding `0`. -/
theorem claim_C3_resize_witness :
    0 < (⟨[[0]], 1⟩ : HashSetSequential Nat).table.length ∧
    ((HashSetSequential.Resize_ id
        (⟨[[0]], 1⟩ : HashSetSequential Nat)).table.length
      = 2 * (⟨[[0]], 1⟩ : HashSetSequential Nat).table.length ∧
    (⟨[[0]], 1⟩ : HashSetSequential Nat).table.length
      ≤ (HashSetSequential.Resize_ id
          (⟨[[0]], 1⟩ : HashSetSequential Nat)).table.length ∧
    ((HashSetSequential.Resize_ id
        (⟨[[0]], 1⟩ : HashSetSequential Nat)).table.flatten : Multiset Nat)
      = ((⟨[[0]], 1⟩ : HashSetSequential Nat).table.flatten : Multiset Nat) ∧
    (HashSetSequential.Resize_ id
        (⟨[[0]], 1⟩ : HashSetSequential Nat)).set_size
      = (⟨[[0]], 1⟩ : HashSetSequential Nat).set_size) :=
  ⟨by decide, claim_C3_resize id (⟨[[0]], 1⟩ : HashSetSequential Nat)
    (by decide)⟩

/-- Claim C4 counterexample: with `B = 2` buckets, after the 8 distinct
elements `0..7` the counter is `n = 8 = 4·B`; adding the 9th element
(the `(4B+1)`-th) makes `n = 9` exceed `4·B`, yet the policy does not
fire and no resize happens (`B` stays 2), because the source compares
with integer division (`9 / 2 = 4`, not `> 4`). -/
theorem claim_C4_counterexample :
    (HashSetSequential.addAll id (HashSetSequential.init Nat 2)
        [0, 1, 2, 3, 4, 5, 6, 7]).table.length = 2 ∧
    (HashSetSequential.addAll id (HashSetSequential.init Nat 2)
        [0, 1, 2, 3, 4, 5, 6, 7]).set_size = 8 ∧
    (HashSetSequential.Add id (HashSetSequential.addAll id
        (HashSetSequential.init Nat 2) [0, 1, 2, 3, 4, 5, 6, 7]) 8).1
      = true ∧
    (HashSetSequential.Add id (HashSetSequential.addAll id
        (HashSetSequential.init Nat 2) [0, 1, 2, 3, 4, 5, 6, 7]) 8).2.set_size
      = 9 ∧
    (HashSetSequential.Add id (HashSetSequential.addAll id
        (HashSetSequential.init Nat 2)
        [0, 1, 2, 3, 4, 5, 6, 7]) 8).2.table.length = 2 ∧
    HashSetSequential.Policy_ (HashSetSequential.Add id
        (HashSetSequential.addAll id (HashSetSequential.init Nat 2)
        [0, 1, 2, 3, 4, 5, 6, 7]) 8).2 = false := by
  decide

/-- Claim C4 (amended): the policy fires exactly when the integer
quotient `n / B` exceeds 4, i.e. exactly when `n ≥ 5·B`; hence with `B`
buckets it first fires when `n` reaches `5·B` (for `B = 1`, on the 5th
element), not when `n` first exceeds `4·B`. -/
theorem claim_C4_amended {α : Type} (s : HashSetSequential α)
    (hpos : 0 < s.table.length) :
    s.Policy_ = true ↔ 5 * s.table.length ≤ s.set_size := by
  rw [HashSetSequential.Policy_]
  simp only [decide_eq_true_eq]
  constructor
  · intro h
    have h5 := (Nat.le_div_iff_mul_le hpos).mp (by omega : 5 ≤ s.set_size / s.table.length)
    omega
  · intro h
    have h5 : 5 ≤ s.set_size / s.table.length :=
      (Nat.le_div_iff_mul_le hpos).mpr (by omega)
    omega

/-- Witness for the amended C4 at the one-bucket state holding 5
elements: the policy fires there. -/
theorem claim_C4_amended_witness :
    0 < (⟨[[0, 1, 2, 3, 4]], 5⟩ : HashSetSequential Nat).table.length ∧
    ((⟨[[0, 1, 2, 3, 4]], 5⟩ : HashSetSequential Nat).Policy_ = true ↔
      5 * (⟨[[0, 1, 2, 3, 4]], 5⟩ : HashSetSequential Nat).table.length
        ≤ (⟨[[0, 1, 2, 3, 4]], 5⟩ : HashSetSequential Nat).set_size) :=
  ⟨by decide,
   claim_C4_amended (⟨[[0, 1, 2, 3, 4]], 5⟩ : HashSetSequential Nat)
     (by decide)⟩

/-- Claim C5 counterexample: the coarse-grained `Resize_` re-checks only
the snapshotted table size, not the load-factor policy.  At a state
with `B = 1` and `n = 0` (all elements concurrently removed after the
triggering `Add` released the lock) the policy is not triggered, yet
`Resize_` with a matching snapshot still performs the rehash and
doubles the table. -/
theorem claim_C5_counterexample :
    HashSetSequential.Policy_ (⟨[[]], 0⟩ : HashSetSequential Nat) = false ∧
    (⟨[[]], 0⟩ : HashSetSequential Nat).table.length = 1 ∧
    (HashSetCoarseGrained.Resize_ id 1
        (⟨[[]], 0⟩ : HashSetSequential Nat)).table.length = 2 := by
  decide

/-- Claim C5 (amended): after re-acquiring the lock, the coarse-grained
`Resize_` re-checks only whether the bucket count still equals the
snapshot taken before locking; it performs the rehash if and only if
`B` is unchanged — even when `n` has meanwhile dropped so the load
factor no longer exceeds 4. -/
theorem claim_C5_amended {α : Type} (hasher : α → Nat) (old_capacity : Nat)
    (s : HashSetSequential α) :
    (old_capacity = s.table.length →
      (HashSetCoarseGrained.Resize_ hasher old_capacity s).table.length
        = old_capacity * 2 ∧
      (HashSetCoarseGrained.Resize_ hasher old_capacity s).set_size
        = s.set_size) ∧
    (old_capacity ≠ s.table.length →
      HashSetCoarseGrained.Resize_ hasher old_capacity s = s) := by
  constructor
  · intro heq
    rw [HashSetCoarseGrained.Resize_, if_neg (by omega)]
    exact ⟨HashSetSequential.rehash_length hasher _ _, rfl⟩
  · intro hne
    rw [HashSetCoarseGrained.Resize_, if_pos hne]

/-- Witness for the amended C5 at snapshot 1 and the empty one-bucket
state: the rehash is performed although the policy is off. -/
theorem claim_C5_amended_witness :
    ((1 = (⟨[[]], 0⟩ : HashSetSequential Nat).table.length →
      (HashSetCoarseGrained.Resize_ id 1
          (⟨[[]], 0⟩ : HashSetSequential Nat)).table.length = 1 * 2 ∧
      (HashSetCoarseGrained.Resize_ id 1
          (⟨[[]], 0⟩ : HashSetSequential Nat)).set_size
        = (⟨[[]], 0⟩ : HashSetSequential Nat).set_size) ∧
    (1 ≠ (⟨[[]], 0⟩ : HashSetSequential Nat).table.length →
      HashSetCoarseGrained.Resize_ id 1 (⟨[[]], 0⟩ : HashSetSequential Nat)
        = (⟨[[]], 0⟩ : HashSetSequential Nat))) :=
  claim_C5_amended id 1 (⟨[[]], 0⟩ : HashSetSequential Nat)

/-- Claim C6: adding `N` distinct elements sequentially to a freshly
constructed set of any positive capacity `c` yields `n = N`,
`B > N/5 ≥ N/5`, `B` of the form `c·2^k` (each resize doubled it), and
at least one resize as soon as `N ≥ 5·c`. -/
theorem claim_C6_growth {α : Type} [DecidableEq α] (hasher : α → Nat)
    (c : Nat) (hc : 0 < c) (es : List α) (hnd : es.Nodup) :
    (HashSetSequential.addAll hasher (HashSetSequential.init α c) es).set_size
      = es.length ∧
    es.length < 5 * (HashSetSequential.addAll hasher
        (HashSetSequential.init α c) es).table.length ∧
    es.length / 5 ≤ (HashSetSequential.addAll hasher
        (HashSetSequential.init α c) es).table.length ∧
    (∃ k, (HashSetSequential.addAll hasher
        (HashSetSequential.init α c) es).table.length = c * 2 ^ k) ∧
    (5 * c ≤ es.length → c < (HashSetSequential.addAll hasher
        (HashSetSequential.init α c) es).table.length) := by
  have hr0 : HashSetSequential.Reachable hasher (HashSetSequential.init α c) :=
    HashSetSequential.Reachable.init c hc
  have hinv := (hr0.addAll es).inv
  have hfresh : ∀ x ∈ es, x ∉ (HashSetSequential.init α c).table.flatten := by
    intro x hx
    rw [show (HashSetSequential.init α c).table = List.replicate c [] from rfl,
      HashSetSequential.flatten_replicate_nil]
    simp
  have hsize := HashSetSequential.addAll_size hasher _ es hr0.inv hnd hfresh
  rw [show (HashSetSequential.init α c).set_size = 0 from rfl] at hsize
  have hload := hinv.2
  obtain ⟨k, hk⟩ :=
    HashSetSequential.addAll_length_pow hasher (HashSetSequential.init α c) es
  have hlen0 : (HashSetSequential.init α c).table.length = c := by
    simp [HashSetSequential.init]
  rw [hlen0] at hk
  refine ⟨by omega, by omega, by omega, ⟨k, hk⟩, by omega⟩

/-- Witness for C6: six distinct elements into capacity 1. -/
theorem claim_C6_growth_witness :
    0 < 1 ∧ ([0, 1, 2, 3, 4, 5] : List Nat).Nodup ∧
    ((HashSetSequential.addAll id (HashSetSequential.init Nat 1)
        [0, 1, 2, 3, 4, 5]).set_size = ([0, 1, 2, 3, 4, 5] : List Nat).length ∧
    ([0, 1, 2, 3, 4, 5] : List Nat).length
      < 5 * (HashSetSequential.addAll id (HashSetSequential.init Nat 1)
        [0, 1, 2, 3, 4, 5]).table.length ∧
    ([0, 1, 2, 3, 4, 5] : List Nat).length / 5
      ≤ (HashSetSequential.addAll id (HashSetSequential.init Nat 1)
        [0, 1, 2, 3, 4, 5]).table.length ∧
    (∃ k, (HashSetSequential.addAll id (HashSetSequential.init Nat 1)
        [0, 1, 2, 3, 4, 5]).table.length = 1 * 2 ^ k) ∧
    (5 * 1 ≤ ([0, 1, 2, 3, 4, 5] : List Nat).length →
      1 < (HashSetSequential.addAll id (HashSetSequential.init Nat 1)
        [0, 1, 2, 3, 4, 5]).table.length)) :=
  ⟨by decide, by decide,
   claim_C6_growth id 1 (by decide) [0, 1, 2, 3, 4, 5] (by decide)⟩

/-- Claim C9: on a reachable state where `e` is absent, `Add(e); Add(e)`
returns `(true, false)` and the size counter is incremented exactly
once across the two calls, even if the first `Add` resized. -/
theorem claim_C9_double_add {α : Type} [DecidableEq α] (hasher : α → Nat)
    (s : HashSetSequential α) (e : α)
    (hr : HashSetSequential.Reachable hasher s)
    (habs : e ∉ s.table.flatten) :
    (HashSetSequential.Add hasher s e).1 = true ∧
    (HashSetSequential.Add hasher (HashSetSequential.Add hasher s e).2 e).1
      = false ∧
    (HashSetSequential.Add hasher
        (HashSetSequential.Add hasher s e).2 e).2.set_size
      = s.set_size + 1 := by
  have hinv := hr.inv
  have he : e ∉ HashSetSequential.Bucket_ hasher s e := fun h =>
    habs ((HashSetSequential.mem_Bucket_iff_mem_flatten hasher s hinv.1 e).mp h)
  have hinv2 := (hr.add s e).inv
  have hmem2 : e ∈ (HashSetSequential.Add hasher s e).2.table.flatten :=
    (HashSetSequential.Add_mem_flatten hasher s e hinv.1 e).mpr (Or.inr rfl)
  have hb2 : e ∈ HashSetSequential.Bucket_ hasher
      (HashSetSequential.Add hasher s e).2 e :=
    (HashSetSequential.mem_Bucket_iff_mem_flatten hasher _ hinv2.1 e).mpr hmem2
  refine ⟨(HashSetSequential.Add_fst hasher s e).mpr he, ?_, ?_⟩
  · rw [HashSetSequential.Add_of_mem hasher _ e hb2]
  · rw [HashSetSequential.Add_of_mem hasher _ e hb2]
    exact HashSetSequential.Add_set_size hasher s e he

/-- Witness for C9: element 0 on the fresh one-bucket set. -/
theorem claim_C9_double_add_witness :
    HashSetSequential.Reachable id (HashSetSequential.init Nat 1) ∧
    (0 : Nat) ∉ (HashSetSequential.init Nat 1).table.flatten ∧
    ((HashSetSequential.Add id (HashSetSequential.init Nat 1) 0).1 = true ∧
    (HashSetSequential.Add id
        (HashSetSequential.Add id (HashSetSequential.init Nat 1) 0).2 0).1
      = false ∧
    (HashSetSequential.Add id
        (HashSetSequential.Add id
          (HashSetSequential.init Nat 1) 0).2 0).2.set_size
      = (HashSetSequential.init Nat 1).set_size + 1) :=
  ⟨HashSetSequential.Reachable.init 1 (by decide), by decide,
   claim_C9_double_add id (HashSetSequential.init Nat 1) 0
     (HashSetSequential.Reachable.init 1 (by decide)) (by decide)⟩

/-- Claim C10: failed `Add` and failed `Remove` leave the table and the
size counter completely unchanged, and `Contains` and `Size` never
modify them. -/
theorem claim_C10_frame {α : Type} [DecidableEq α] (hasher : α → Nat)
    (s : HashSetSequential α) (e : α) :
    ((HashSetSequential.Add hasher s e).1 = false →
      (HashSetSequential.Add hasher s e).2 = s) ∧
    ((HashSetSequential.Remove hasher s e).1 = false →
      (HashSetSequential.Remove hasher s e).2 = s) ∧
    (HashSetSequential.Contains hasher s e).2 = s ∧
    (HashSetSequential.Size s).2 = s := by
  refine ⟨?_, ?_, rfl, rfl⟩
  · intro h
    by_cases he : e ∈ HashSetSequential.Bucket_ hasher s e
    · simp [HashSetSequential.Add, he]
    · exfalso
      revert h
      by_cases hp : (HashSetSequential.addInsert hasher s e).Policy_ = true <;>
        simp [HashSetSequential.Add, he, hp]
  · intro h
    by_cases he : e ∈ HashSetSequential.Bucket_ hasher s e
    · exfalso
      revert h
      simp [HashSetSequential.Remove, he]
    · simp [HashSetSequential.Remove, he]

/-- Witness for C10: a state holding only element 0, queried at 0. -/
theorem claim_C10_frame_witness :
    ((HashSetSequential.Add id (⟨[[0]], 1⟩ : HashSetSequential Nat) 0).1
        = false →
      (HashSetSequential.Add id (⟨[[0]], 1⟩ : HashSetSequential Nat) 0).2
        = (⟨[[0]], 1⟩ : HashSetSequential Nat)) ∧
    ((HashSetSequential.Remove id (⟨[[0]], 1⟩ : HashSetSequential Nat) 0).1
        = false →
      (HashSetSequential.Remove id (⟨[[0]], 1⟩ : HashSetSequential Nat) 0).2
        = (⟨[[0]], 1⟩ : HashSetSequential Nat)) ∧
    (HashSetSequential.Contains id (⟨[[0]], 1⟩ : HashSetSequential Nat) 0).2
      = (⟨[[0]], 1⟩ : HashSetSequential Nat) ∧
    (HashSetSequential.Size (⟨[[0]], 1⟩ : HashSetSequential Nat)).2
      = (⟨[[0]], 1⟩ : HashSetSequential Nat) :=
  claim_C10_frame id (⟨[[0]], 1⟩ : HashSetSequential Nat) 0

namespace HashSetRefinable

/-- The owner token of the refinable set: `AtomicMarkableValue<owner_t>`
holding an optional thread id (modelled as `Nat`) and a mark bit.
Initialised to `(nullopt, false)` by the constructor. -/
structure OwnerToken where
  owner : Option Nat
  mark : Bool
deriving DecidableEq

/-- The constructor's initial token value `(std::nullopt, false)`. -/
def initialToken : OwnerToken := ⟨none, false⟩

/-- The state-changing updates the protocol performs on the owner
token.  `Resize_` contains exactly two kinds of writes: the successful
`CompareAndSet(nullopt, me, false, true)` (a failing CAS writes
nothing) and the unconditional `Set(nullopt, false)` restores (on the
early-return path and after publishing the new table).  `Acquire_`
only reads the token. -/
inductive TokenStep : OwnerToken → OwnerToken → Prop
  | casWin (t : Nat) : TokenStep ⟨none, false⟩ ⟨some t, true⟩
  | restore (tok : OwnerToken) : TokenStep tok ⟨none, false⟩

/-- Token values reachable from the initial value under the protocol's
updates. -/
inductive TokenReachable : OwnerToken → Prop
  | init : TokenReachable initialToken
  | step (a b : OwnerToken) : TokenReachable a → TokenStep a b →
      TokenReachable b

end HashSetRefinable

/-- Claim C8: starting from `(none, false)`, every update the refinable
resize protocol performs on the owner token preserves the shape
invariant: the token is either `(none, false)` or `(t, true)` for some
thread `t`; `(none, true)` and `(t, false)` are unreachable. -/
theorem claim_C8_owner_token {tok : HashSetRefinable.OwnerToken}
    (h : HashSetRefinable.TokenReachable tok) :
    tok = ⟨none, false⟩ ∨ ∃ t, tok = ⟨some t, true⟩ := by
  induction h with
  | init => exact Or.inl rfl
  | step a b _ hstep _ =>
    cases hstep with
    | casWin t => exact Or.inr ⟨t, rfl⟩
    | restore _ => exact Or.inl rfl

/-- Witness for C8 at a token reached by a winning CAS of thread 7. -/
theorem claim_C8_owner_token_witness :
    HashSetRefinable.TokenReachable ⟨some 7, true⟩ ∧
    ((⟨some 7, true⟩ : HashSetRefinable.OwnerToken) = ⟨none, false⟩ ∨
      ∃ t, (⟨some 7, true⟩ : HashSetRefinable.OwnerToken) = ⟨some t, true⟩) :=
  ⟨HashSetRefinable.TokenReachable.step _ _ HashSetRefinable.TokenReachable.init
     (HashSetRefinable.TokenStep.casWin 7),
   claim_C8_owner_token
     (HashSetRefinable.TokenReachable.step _ _
       HashSetRefinable.TokenReachable.init
       (HashSetRefinable.TokenStep.casWin 7))⟩

namespace HashSetRefinable

/-- Global shared state of the refinable set relevant to the
`Acquire_` / `Resize_` coordination.  `gen` identifies the current
stripe-array storage (it increments each time `mutexes_` is replaced);
`stripes` is `mutexes_.size()`; `cap` is `table_size_`; `owner` is the
owner token as a plain pair; `locked` is the set of held stripe locks,
identified by (storage generation, index).  Old generations are kept
(the C++ frees them; the model keeps them alive, which only gives the
code more benefit of the doubt). -/
structure RefState where
  gen : Nat
  stripes : Nat
  cap : Nat
  owner : Option Nat × Bool
  locked : List (Nat × Nat)
deriving DecidableEq

/-- Program counter of a thread inside `Acquire_`, one position per
source statement:
spin loop on the token; evaluation of
`old_locks->at(hasher_(elem) % old_locks->size())` (which reads the
current `mutexes_` buffer, because `old_locks = &mutexes_` is the
address of the member and the reference is taken now); the blocking
`old_lock.lock()`; the validation re-read of the token; and the
return.  The stripe reference obtained at the lookup is carried as a
(generation, index) pair. -/
inductive AcqPc
  | spin
  | lockWait (g i : Nat)
  | validate (g i : Nat)
  | finished (g i : Nat)
deriving DecidableEq

/-- Program counter of a thread inside `Resize_`: snapshot of
`table_size_`; the owner CAS; the capacity re-check; the `Quiesce_`
loop (index of the next stripe to try-lock); the replacement of
`mutexes_`; the publication of the new table and `table_size_`;
the final `Set(nullopt, false)`; and the two exits. -/
inductive ResPc
  | start
  | cas (oldCap : Nat)
  | recheck (oldCap : Nat)
  | quiesce (oldCap k : Nat)
  | replaceLocks (oldCap : Nat)
  | updateCap (oldCap : Nat)
  | unmark (oldCap : Nat)
  | done
  | exited
deriving DecidableEq

/-- One step of `Acquire_` for thread `me` acquiring an element with
hash value `hE`, straight from the source.  The validation condition
is `(!mark || who == me) && &mutexes_ == old_locks`; since
`old_locks` was set to `&mutexes_` (the address of the member vector
object, which `mutexes_ = std::vector<std::mutex>(n)` never changes),
the second conjunct is identically true and the model evaluates it as
such. -/
def acqStep (me hE : Nat) (pc : AcqPc) (g : RefState) : AcqPc × RefState :=
  match pc with
  | .spin =>
      if g.owner.2 && !(g.owner.1 == some me) then (.spin, g)
      else (.lockWait g.gen (hE % g.stripes), g)
  | .lockWait gi i =>
      if (gi, i) ∈ g.locked then (.lockWait gi i, g)
      else (.validate gi i, { g with locked := (gi, i) :: g.locked })
  | .validate gi i =>
      if !g.owner.2 || (g.owner.1 == some me) then (.finished gi i, g)
      else (.spin, { g with locked := g.locked.erase (gi, i) })
  | .finished gi i => (.finished gi i, g)

/-- One step of `Resize_` for thread `me`, straight from the source:
read `old_capacity = table_size_`; CAS the token `(nullopt, false) →
(me, true)` (on failure return); if `table_size_` changed, restore the
token and return; `Quiesce_` (try-lock/unlock each stripe of the
current `mutexes_` in order, spinning while one is held); replace
`mutexes_` with a fresh vector of `new_capacity` locks; rehash and
publish `table_size_ = new_capacity`; restore the token. -/
def resStep (me : Nat) (pc : ResPc) (g : RefState) : ResPc × RefState :=
  match pc with
  | .start => (.cas g.cap, g)
  | .cas oldCap =>
      if g.owner == (none, false) then
        (.recheck oldCap, { g with owner := (some me, true) })
      else (.exited, g)
  | .recheck oldCap =>
      if oldCap == g.cap then (.quiesce oldCap 0, g)
      else (.exited, { g with owner := (none, false) })
  | .quiesce oldCap k =>
      if k < g.stripes then
        if (g.gen, k) ∈ g.locked then (.quiesce oldCap k, g)
        else (.quiesce oldCap (k + 1), g)
      else (.replaceLocks oldCap, g)
  | .replaceLocks oldCap =>
      (.updateCap oldCap, { g with gen := g.gen + 1, stripes := oldCap * 2 })
  | .updateCap oldCap => (.unmark oldCap, { g with cap := oldCap * 2 })
  | .unmark _ => (.done, { g with owner := (none, false) })
  | .done => (.done, g)
  | .exited => (.exited, g)

/-- A three-thread system: thread 1 runs `Acquire_` for an element with
hash 0, threads 2 and 3 each run one call of `Resize_`. -/
structure SysState where
  a : AcqPc
  r : ResPc
  r2 : ResPc
  glob : RefState
deriving DecidableEq

/-- Scheduler choice. -/
inductive Tid
  | A
  | R
  | R2
deriving DecidableEq

/-- Interleaving semantics: the chosen thread performs its next step. -/
def sysStep (t : Tid) (st : SysState) : SysState :=
  match t with
  | .A =>
      let p := acqStep 1 0 st.a st.glob
      { st with a := p.1, glob := p.2 }
  | .R =>
      let p := resStep 2 st.r st.glob
      { st with r := p.1, glob := p.2 }
  | .R2 =>
      let p := resStep 3 st.r2 st.glob
      { st with r2 := p.1, glob := p.2 }

/-- Run a schedule from a state. -/
def run (sched : List Tid) (st : SysState) : SysState :=
  sched.foldl (fun s t => sysStep t s) st

/-- Initial system state: capacity 1 (one stripe, generation 0), token
`(nullopt, false)`, no lock held, all threads at their entry points. -/
def initSys : SysState :=
  ⟨.spin, .start, .start, ⟨0, 1, 1, (none, false), []⟩⟩

/-- The schedule exhibiting the bug: the acquirer passes the spin test
and evaluates its stripe reference; resizer 2 then runs a complete
`Resize_` (CAS, re-check, quiesce over the unheld stripe, replace,
publish, un-mark); the acquirer then locks the now-stale generation-0
stripe and validates successfully; finally resizer 3 runs another
complete `Resize_` while the acquirer still holds its stripe. -/
def schedBug : List Tid :=
  [.A, .R, .R, .R, .R, .R, .R, .R, .R, .A, .A,
   .R2, .R2, .R2, .R2, .R2, .R2, .R2, .R2, .R2]

end HashSetRefinable

open HashSetRefinable in
/-- Claim C7 fails on the code (code bug): because
`&mutexes_ == old_locks` compares the address of the member vector
object — which vector assignment never changes — the replacement check
of `Acquire_` is identically true.  Under `schedBug`, after 11 steps
the acquirer has returned from `Acquire_` holding the generation-0
stripe while the current stripe array is already generation 1 (it was
replaced between the stripe lookup and the lock), and by the end of
the schedule a second resizer has replaced the stripe array again
(generation 2) without waiting for the holder to release. -/
theorem claim_C7_stale_acquire_trace :
    (run (schedBug.take 11) initSys).a = AcqPc.finished 0 0 ∧
    (run (schedBug.take 11) initSys).glob.gen = 1 ∧
    (0, 0) ∈ (run (schedBug.take 11) initSys).glob.locked ∧
    (run schedBug initSys).a = AcqPc.finished 0 0 ∧
    (run schedBug initSys).r2 = ResPc.done ∧
    (run schedBug initSys).glob.gen = 2 ∧
    (0, 0) ∈ (run schedBug initSys).glob.locked := by
  decide
